import Mathlib

/-!
Verification of the envshield-mcp secret-protection pipeline.

The definitions below are a shallow embedding of the TypeScript sources:
  * `src/core/scrubber.ts`  — `Scrubber` (RedactionEngine): `scrub`, `redact`,
    the built-in pattern table;
  * the `CommandExecutor` of `src/mcp/mcp.ts` (boundary-aware blocklist,
    single-resolution event handling, timeout result);
  * `src/core/secrets.ts` — `SecretStore`;
  * `src/mcp/server.ts` — `RateLimiter` and the `run_with_secrets` tool
    dispatch (rate admission, missing-secret validation, secrets-map build).

Text is modelled as `List Char`; JavaScript `String.prototype.includes`,
`split`/`join` replacement, and the specific regexes that occur in the
sources are given executable list-level semantics.
-/

abbrev Str := List Char

/-- Decidable substring occurrence scanner, the model of JavaScript
`text.includes(pat)`: at each suffix, compare the prefix with `pat`. -/
def occursInB (pat : Str) : Str → Bool
  | [] => decide (pat = [])
  | c :: rest => decide ((c :: rest).take pat.length = pat) || occursInB pat rest

/-- Specification-side occurrence predicate: `pat` occurs contiguously in `t`. -/
def occursIn (pat t : Str) : Prop := ∃ pre post, t = pre ++ pat ++ post

/-- Fuel-driven model of `text.split(pat).join(rep)` for a non-empty `pat`:
replace every leftmost, non-overlapping occurrence of `pat` by `rep`,
scanning left to right.  (All call sites in the source pass a non-empty
`pat`: the known-value pass is guarded by `if (value …)` and regex matches
recorded by the pattern passes are non-empty.)  For `pat = []` this is the
identity. -/
def replaceAllF (pat rep : Str) : Nat → Str → Str
  | _, [] => []
  | 0, t => t
  | fuel + 1, c :: rest =>
    if (c :: rest).take pat.length = pat ∧ pat ≠ [] then
      rep ++ replaceAllF pat rep fuel ((c :: rest).drop pat.length)
    else
      c :: replaceAllF pat rep fuel rest

def replaceAll (pat rep t : Str) : Str := replaceAllF pat rep t.length t

/-- Redaction modes of the scrubber (`RedactMode` in `src/core/scrubber.ts`);
`partialM` stands for the source's `"partial"` mode. -/
inductive RedactMode where
  | placeholder
  | asterisk
  | partialM
deriving DecidableEq

/-- Model of `Scrubber.redact(value, name)`. -/
def redact (mode : RedactMode) (value : Str) (name : Str) : Str :=
  match mode with
  | .placeholder => ("[REDACTED:").data ++ name ++ ("]").data
  | .asterisk => List.replicate value.length '*'
  | .partialM =>
    if value.length ≤ 6 then List.replicate value.length '*'
    else value.take 3 ++ ("***").data ++ value.drop (value.length - 3)

/-- Items of the deterministic fragment of regular expressions used by the
scrubber's built-in rules: a literal, a greedy one-or-more character class,
or an exactly-`n` character class. -/
inductive RItem where
  | lit (s : Str)
  | cplus (p : Char → Bool)
  | crep (p : Char → Bool) (n : Nat)

abbrev RPat := List RItem

/-- Length of the match of `pat` at the head of `t`, if any.  The built-in
patterns are deterministic (each greedy class excludes the character of the
following literal), so greedy matching without backtracking coincides with
JavaScript regex semantics for them. -/
def matchLen : RPat → Str → Option Nat
  | [], _ => some 0
  | .lit s :: rest, t =>
    if t.take s.length = s then (matchLen rest (t.drop s.length)).map (· + s.length) else none
  | .cplus p :: rest, t =>
    let run := t.takeWhile p
    if run.length = 0 then none
    else (matchLen rest (t.drop run.length)).map (· + run.length)
  | .crep p n :: rest, t =>
    if (t.take n).length = n ∧ (t.take n).all p then
      (matchLen rest (t.drop n)).map (· + n)
    else none

/-- Fuel-driven model of `text.match(pattern)` with the `g` flag: collect
every leftmost, non-overlapping match, scanning left to right.  Zero-length
matches are skipped (no built-in pattern can match the empty string). -/
def scanAllF (pat : RPat) : Nat → Str → List Str
  | 0, _ => []
  | _, [] => []
  | fuel + 1, c :: rest =>
    match matchLen pat (c :: rest) with
    | some l =>
      if l = 0 then scanAllF pat fuel rest
      else (c :: rest).take l :: scanAllF pat fuel ((c :: rest).drop l)
    | none => scanAllF pat fuel rest

def scanAll (pat : RPat) (t : Str) : List Str := scanAllF pat t.length t

def latinAlnum (c : Char) : Bool :=
  (97 ≤ c.toNat && c.toNat ≤ 122) || (65 ≤ c.toNat && c.toNat ≤ 90) ||
    (48 ≤ c.toNat && c.toNat ≤ 57)

def upperDigit (c : Char) : Bool :=
  (65 ≤ c.toNat && c.toNat ≤ 90) || (48 ≤ c.toNat && c.toNat ≤ 57)

def jwtChar (c : Char) : Bool := latinAlnum c || c = '_' || c = '-'

/-- The fixed built-in rule table of the `Scrubber` constructor:
`(pattern, name)` pairs, in source order. -/
def builtinRules : List (RPat × Str) :=
  [ ([.lit (("sk_live_").data), .cplus latinAlnum], ("STRIPE_LIVE_KEY").data),
    ([.lit (("sk_test_").data), .cplus latinAlnum], ("STRIPE_TEST_KEY").data),
    ([.lit (("pk_live_").data), .cplus latinAlnum], ("STRIPE_PK_LIVE").data),
    ([.lit (("pk_test_").data), .cplus latinAlnum], ("STRIPE_PK_TEST").data),
    ([.lit (("ghp_").data), .cplus latinAlnum], ("GITHUB_PAT").data),
    ([.lit (("gho_").data), .cplus latinAlnum], ("GITHUB_OAUTH").data),
    ([.lit (("ghu_").data), .cplus latinAlnum], ("GITHUB_USER").data),
    ([.lit (("AKIA").data), .crep upperDigit 16], ("AWS_ACCESS_KEY").data),
    ([.lit (("sk-").data), .crep latinAlnum 48], ("OPENAI_KEY").data),
    ([.lit (("eyJ").data), .cplus jwtChar, .lit ((".").data), .cplus jwtChar,
      .lit ((".").data), .cplus jwtChar], ("JWT").data) ]

/-- The scrubber configuration: a redaction mode and the compiled custom
patterns (built-ins are the fixed table above). -/
structure Scrubber where
  mode : RedactMode
  customPatterns : List RPat

structure ScrubResult where
  text : Str
  redactedCount : Nat
deriving DecidableEq

/-- One step of the known-value pass of `Scrubber.scrub`: the body of
`for (const [name, value] of knownSecrets)`. -/
def knownStep (mode : RedactMode) (acc : Str × Nat) (nv : Str × Str) : Str × Nat :=
  if nv.2 ≠ [] ∧ occursInB nv.2 acc.1 = true then
    (replaceAll nv.2 (redact mode nv.2 nv.1) acc.1, acc.2 + 1)
  else acc

/-- One replacement of a pattern pass: the body of `for (const match of matches)`. -/
def patternStepInner (mode : RedactMode) (label : Str) (acc : Str × Nat) (m : Str) :
    Str × Nat :=
  (replaceAll m (redact mode m label) acc.1, acc.2 + 1)

/-- One built-in rule of the pattern pass: matches are collected once on the
current text, then replaced one after the other. -/
def patternStep (mode : RedactMode) (acc : Str × Nat) (rule : RPat × Str) : Str × Nat :=
  (scanAll rule.1 acc.1).foldl (patternStepInner mode rule.2) acc

/-- One custom rule of the custom pass; every match uses the label
`CUSTOM_PATTERN`. -/
def customStep (mode : RedactMode) (acc : Str × Nat) (pat : RPat) : Str × Nat :=
  (scanAll pat acc.1).foldl (patternStepInner mode (("CUSTOM_PATTERN").data)) acc

/-- Model of `Scrubber.scrub(text, knownSecrets)`: the known-value pass, then
the built-in pattern pass, then the custom pattern pass, threading the text
and the running `redactedCount`. -/
def scrub (sc : Scrubber) (t : Str) (known : List (Str × Str)) : ScrubResult :=
  let a1 := known.foldl (knownStep sc.mode) (t, 0)
  let a2 := builtinRules.foldl (patternStep sc.mode) a1
  let a3 := sc.customPatterns.foldl (customStep sc.mode) a2
  ⟨a3.1, a3.2⟩

/-- Execution result shape (`ExecuteResult` in the source): exit code,
scrubbed stdout/stderr, and total replacement count. -/
structure ExecuteResult where
  exitCode : Int
  stdout : Str
  stderr : Str
  redactedCount : Nat
deriving DecidableEq

/-- In the JavaScript regular expression `\s`, the set of whitespace
characters (by code point). -/
def jsSpace (c : Char) : Bool :=
  let n := c.toNat
  n = 0x20 || n = 0x9 || n = 0xa || n = 0xd || n = 0xb || n = 0xc ||
    n = 0xa0 || n = 0x1680 || (0x2000 ≤ n && n ≤ 0x200a) ||
    n = 0x2028 || n = 0x2029 || n = 0x202f || n = 0x205f || n = 0x3000 || n = 0xfeff

/-- Characters accepted by the character class of the blocklist regex on
either side of the blocked entry: whitespace or one of the shell
metacharacters. -/
def boundaryChar (c : Char) : Bool := jsSpace c || c = '|' || c = '&' || c = ';'

/-- Semantics of `new RegExp("(?:^|\\s|[|&;])" + escaped + "(?:\\s|[|&;]|$)").test(command)`
in `CommandExecutor.execute` (the blocked entry is regex-escaped, so it is
matched literally): some position `i` carries an occurrence of `b` whose
left neighbour is the start of the string or a boundary character, and whose
right neighbour is a boundary character or the end of the string. -/
def blockedTokenB (b cmd : Str) : Bool :=
  (List.range (cmd.length + 1)).any fun i =>
    decide ((cmd.drop i).take b.length = b) &&
    (decide (i = 0) ||
      (match (cmd.take i).getLast? with
       | some c => boundaryChar c
       | none => false)) &&
    (match (cmd.drop (i + b.length)).head? with
     | some c => boundaryChar c
     | none => true)

/-- Specification-side predicate for claim C2: `b` appears in `cmd` as a
whole token, bounded on each side by start/end-of-string, whitespace, or a
shell metacharacter. -/
def wholeTokenOccurrence (b cmd : Str) : Prop :=
  ∃ pre post, cmd = pre ++ b ++ post ∧
    (pre = [] ∨ ∃ c pre2, pre = pre2 ++ [c] ∧ boundaryChar c = true) ∧
    (post = [] ∨ ∃ c post2, post = c :: post2 ∧ boundaryChar c = true)

/-- The rejection result built when a blocked entry matches. -/
def blockedResult (b : String) : ExecuteResult :=
  ⟨1, [], (("Command blocked: contains \"") ++ b ++ ("\"")).data, 0⟩

/-- The admission loop of `CommandExecutor.execute`: the first blocked entry
whose boundary-aware matcher fires produces an immediate rejection. -/
def blockCheck (blockedCommands : List String) (command : String) : Option ExecuteResult :=
  (blockedCommands.find? fun b => blockedTokenB b.data command.data).map blockedResult

/-- Outcome of the admission phase of `execute`: either an immediate blocked
result (nothing is spawned) or the call proceeds to spawn the process. -/
inductive ExecPhase where
  | blockedEarly (r : ExecuteResult)
  | spawned
deriving DecidableEq

def executeStart (blockedCommands : List String) (command : String) : ExecPhase :=
  match blockCheck blockedCommands command with
  | some r => ExecPhase.blockedEarly r
  | none => ExecPhase.spawned

/-- Process lifecycle events delivered to the handlers registered by
`execute`: stdout/stderr `data`, the timeout timer firing, `exit`, `close`,
and the spawn-level `error`. -/
inductive PEvent where
  | dataOut (chunk : Str)
  | dataErr (chunk : Str)
  | timerFire
  | exited (code : Option Int)
  | closed (code : Option Int)
  | errored (msg : Str)

/-- The mutable state captured by the closures of `execute`: the output
accumulators, the `timedOut` flag, the single-resolution `resolved` slot,
and the names reported by the post-scrub verification loop. -/
structure ExecState where
  stdoutAcc : Str
  stderrAcc : Str
  timedOut : Bool
  resolved : Option ExecuteResult
  warnings : List Str
deriving DecidableEq

def initExecState : ExecState := ⟨[], [], false, none, []⟩

/-- Model of the `done` closure: commit a result only if none is committed. -/
def doneCommit (r : ExecuteResult) (s : ExecState) : ExecState :=
  match s.resolved with
  | some _ => s
  | none => { s with resolved := some r }

/-- Model of `handleExit` (shared by the `close` and `exit` handlers):
return if already resolved; commit the fixed timeout result if the timer
fired; otherwise scrub both streams, record verification warnings for any
secret value still present in the combined scrubbed output, and commit the
scrubbed result. -/
def handleExit (sc : Scrubber) (secrets : List (Str × Str)) (code : Option Int)
    (s : ExecState) : ExecState :=
  match s.resolved with
  | some _ => s
  | none =>
    if s.timedOut then
      doneCommit ⟨1, [], ("Command timeout exceeded").data, 0⟩ s
    else
      let so := scrub sc s.stdoutAcc secrets
      let se := scrub sc s.stderrAcc secrets
      let combined := so.text ++ se.text
      let warns := (secrets.filter fun nv =>
        decide (nv.2 ≠ []) && occursInB nv.2 combined).map (·.1)
      doneCommit ⟨code.getD 1, so.text, se.text, so.redactedCount + se.redactedCount⟩
        { s with warnings := s.warnings ++ warns }

/-- One event of the execution lifecycle.  `data` events append to the
accumulators; the timer sets `timedOut` (the SIGKILL it sends is an external
effect); `exit`/`close` run `handleExit`; `error` commits the error result. -/
def stepEv (sc : Scrubber) (secrets : List (Str × Str)) (s : ExecState) (e : PEvent) :
    ExecState :=
  match e with
  | .dataOut ch => { s with stdoutAcc := s.stdoutAcc ++ ch }
  | .dataErr ch => { s with stderrAcc := s.stderrAcc ++ ch }
  | .timerFire => { s with timedOut := true }
  | .exited c => handleExit sc secrets c s
  | .closed c => handleExit sc secrets c s
  | .errored m => doneCommit ⟨1, [], m, 0⟩ s

def runEvents (sc : Scrubber) (secrets : List (Str × Str)) (s : ExecState)
    (es : List PEvent) : ExecState :=
  es.foldl (stepEv sc secrets) s

def isDataEv : PEvent → Bool
  | .dataOut _ => true
  | .dataErr _ => true
  | _ => false

def isExitCloseEv : PEvent → Bool
  | .exited _ => true
  | .closed _ => true
  | _ => false

def isTerminalEv : PEvent → Bool
  | .exited _ => true
  | .closed _ => true
  | .errored _ => true
  | _ => false

/-- Entries of the `SecretStore` (`src/core/secrets.ts`): current value,
append-only source history, and the most recent source. -/
structure SecretEntry where
  value : Str
  sources : List Str
  activeSource : Str
deriving DecidableEq

instance : Nonempty SecretEntry := ⟨⟨[], [], []⟩⟩

/-- The store is a name-keyed map with JavaScript `Map` semantics: updating
an existing key keeps its position, a new key is appended. -/
abbrev SecretStoreM := List (Str × SecretEntry)

def lookupSt : SecretStoreM → Str → Option SecretEntry
  | [], _ => none
  | (k, e) :: rest, n => if k = n then some e else lookupSt rest n

/-- Model of `SecretStore.set(name, value, source)`: overwrite value and
active source and append to the history if the name exists, else insert a
fresh entry at the end. -/
def setSt : SecretStoreM → Str → Str → Str → SecretStoreM
  | [], n, v, src => [(n, ⟨v, [src], src⟩)]
  | (k, e) :: rest, n, v, src =>
    if k = n then (k, ⟨v, e.sources ++ [src], src⟩) :: rest
    else (k, e) :: setSt rest n v src

def getSt (st : SecretStoreM) (n : Str) : Option Str := (lookupSt st n).map (·.value)

def hasSt (st : SecretStoreM) (n : Str) : Bool := (lookupSt st n).isSome

def namesSt (st : SecretStoreM) : List Str := st.map (·.1)

def sourcesSt (st : SecretStoreM) (n : Str) : List Str :=
  ((lookupSt st n).map (·.sources)).getD []

def activeSourceSt (st : SecretStoreM) (n : Str) : Option Str :=
  (lookupSt st n).map (·.activeSource)

def valuesSt (st : SecretStoreM) : List (Str × Str) := st.map fun ke => (ke.1, ke.2.value)

def allValuesSt (st : SecretStoreM) : List Str := st.map (·.2.value)

/-- A trace of `set` calls, applied in order to a store. -/
def applyOps (st : SecretStoreM) (ops : List (Str × Str × Str)) : SecretStoreM :=
  ops.foldl (fun s o => setSt s o.1 o.2.1 o.2.2) st

/-- Specification-side first-insertion order of a sequence of names: keep
each name at the position of its first occurrence. -/
def firstInsert (l : List Str) : List Str :=
  l.foldl (fun acc x => if x ∈ acc then acc else acc ++ [x]) []

/-- State of the `RateLimiter` of `src/mcp/server.ts`. -/
structure RLState where
  ts : List Nat
  maxRequests : Nat
  windowMs : Nat
deriving DecidableEq

/-- The pruning step shared by `check` and `getWaitTime`: keep only the
timestamps younger than the window. -/
def rlPrune (now : Nat) (s : RLState) : List Nat :=
  s.ts.filter fun t => decide (now - t < s.windowMs)

/-- Model of `RateLimiter.check()`: prune, deny when the pruned list is at
capacity (storing the pruned list), otherwise append `now` and admit. -/
def rlCheck (now : Nat) (s : RLState) : Bool × RLState :=
  let pruned := rlPrune now s
  if s.maxRequests ≤ pruned.length then (false, { s with ts := pruned })
  else (true, { s with ts := pruned ++ [now] })

/-- Model of `RateLimiter.getWaitTime()`.  With natural-number subtraction
the `Math.max(0, …)` clamp is implicit.  (When `maxRequests = 0` and the
pruned list is empty, the JavaScript original reads `timestamps[0]` as
`undefined` and yields `NaN`; that corner is modelled as `0`.) -/
def rlGetWaitTime (now : Nat) (s : RLState) : Nat × RLState :=
  let pruned := rlPrune now s
  if pruned.length < s.maxRequests then (0, { s with ts := pruned })
  else
    (match pruned.head? with
     | some t0 => s.windowMs - (now - t0)
     | none => 0, { s with ts := pruned })

/-- Outcome of the `run_with_secrets` tool dispatch in `src/mcp/server.ts`:
either an early structured rejection, or a call to `executor.execute` with
the built secrets map. -/
inductive RunOutcome where
  | rejected (r : ExecuteResult)
  | runExec (command : String) (secretsMap : List (Str × Str)) (timeoutMs : Nat)
      (workingDir : Option String)
deriving DecidableEq

def lookupKV : List (Str × Str) → Str → Option Str
  | [], _ => none
  | (k, v) :: rest, n => if k = n then some v else lookupKV rest n

/-- JavaScript `Map.set` on an association list: overwrite in place or
append. -/
def upsertKV : List (Str × Str) → Str → Str → List (Str × Str)
  | [], k, v => [(k, v)]
  | (k0, v0) :: rest, k, v =>
    if k0 = k then (k0, v) :: rest else (k0, v0) :: upsertKV rest k v

/-- One name of the `secretsMap` construction of `run_with_secrets`:
`secrets.get(name)` followed by `if (value) secretsMap.set(…)` — an entry
whose value is the empty string is skipped (empty strings are falsy). -/
def buildStep (store : SecretStoreM) (m : List (Str × Str)) (nm : String) :
    List (Str × Str) :=
  match getSt store nm.data with
  | some v => if v ≠ [] then upsertKV m nm.data v else m
  | none => m

def buildSecretsMap (store : SecretStoreM) (secretNames : List String) : List (Str × Str) :=
  secretNames.foldl (buildStep store) []

/-- The body of the `run_with_secrets` case after rate admission: validate
that every requested secret exists (rejecting with the list of missing names
otherwise), then hand the built secrets map to the executor. -/
def runBody (store : SecretStoreM) (command : String) (secretNames : List String)
    (timeoutArg : Option Nat) (workingDir : Option String) : RunOutcome :=
  let missing := secretNames.filter fun s => !(hasSt store s.data)
  if missing ≠ [] then
    RunOutcome.rejected
      ⟨1, [], (("Secrets not found: ") ++ String.intercalate (", ") missing).data, 0⟩
  else
    RunOutcome.runExec command (buildSecretsMap store secretNames)
      (timeoutArg.getD 30000) workingDir

/-- Model of the `run_with_secrets` case of `callTool`: the rate limiter (if
configured) is consulted first; a denial is rejected with the wait-time
message (`Math.ceil(waitTime / 1000)` seconds); otherwise the body runs. -/
def runWithSecrets (limiter : Option RLState) (now : Nat) (store : SecretStoreM)
    (command : String) (secretNames : List String) (timeoutArg : Option Nat)
    (workingDir : Option String) : RunOutcome :=
  match limiter with
  | some l =>
    if (rlCheck now l).1 = false then
      let wait := (rlGetWaitTime now (rlCheck now l).2).1
      RunOutcome.rejected
        ⟨1, [],
          (("Rate limit exceeded. Too many commands requested. Please wait ") ++
            toString ((wait + 999) / 1000) ++
            (" seconds before trying again.")).data, 0⟩
    else runBody store command secretNames timeoutArg workingDir
  | none => runBody store command secretNames timeoutArg workingDir

/-! ## Lemmas and theorems -/

set_option maxRecDepth 8000

lemma occursInB_iff (pat t : Str) : occursInB pat t = true ↔ occursIn pat t := by
  induction t with
  | nil =>
    simp only [occursInB, decide_eq_true_eq, occursIn]
    constructor
    · rintro rfl; exact ⟨[], [], rfl⟩
    · rintro ⟨pre, post, h⟩
      have hl := congrArg List.length h
      simp [List.length_append] at hl
      exact List.eq_nil_of_length_eq_zero (by omega)
  | cons c rest ih =>
    simp only [occursInB, Bool.or_eq_true, decide_eq_true_eq, ih]
    constructor
    · rintro (htake | ⟨pre, post, h⟩)
      · exact ⟨[], (c :: rest).drop pat.length, by
          conv_lhs => rw [← List.take_append_drop pat.length (c :: rest)]
          rw [htake]; simp⟩
      · exact ⟨c :: pre, post, by simp [h]⟩
    · rintro ⟨pre, post, h⟩
      cases pre with
      | nil =>
        left
        simp only [List.nil_append] at h
        rw [h, List.take_left]
      | cons p pre2 =>
        right
        simp only [List.cons_append] at h
        exact ⟨pre2, post, (List.cons.injEq _ _ _ _).mp h |>.2⟩

lemma foldl_snd_le {α : Type} (f : (Str × Nat) → α → (Str × Nat))
    (hf : ∀ a x, a.2 ≤ (f a x).2) :
    ∀ (l : List α) (a : Str × Nat), a.2 ≤ (l.foldl f a).2 := by
  intro l
  induction l with
  | nil => intro a; simp
  | cons x xs ih => intro a; exact le_trans (hf a x) (ih (f a x))

lemma knownStep_snd_le (mode : RedactMode) (a : Str × Nat) (nv : Str × Str) :
    a.2 ≤ (knownStep mode a nv).2 := by
  unfold knownStep; split <;> simp

lemma patternStep_snd_le (mode : RedactMode) (a : Str × Nat) (rule : RPat × Str) :
    a.2 ≤ (patternStep mode a rule).2 :=
  foldl_snd_le _ (fun a m => by simp [patternStepInner]) _ a

lemma customStep_snd_le (mode : RedactMode) (a : Str × Nat) (pat : RPat) :
    a.2 ≤ (customStep mode a pat).2 :=
  foldl_snd_le _ (fun a m => by simp [patternStepInner]) _ a

lemma known_foldl_pos (mode : RedactMode) :
    ∀ (l : List (Str × Str)) (t : Str) (c : Nat),
      (∃ p, p ∈ l ∧ p.2 ≠ [] ∧ occursIn p.2 t) →
      c + 1 ≤ (l.foldl (knownStep mode) (t, c)).2 := by
  intro l
  induction l with
  | nil => rintro t c ⟨p, hp, _⟩; simp at hp
  | cons hd tl ih =>
    rintro t c ⟨p, hp, hne, hocc⟩
    simp only [List.foldl_cons]
    by_cases hstep : hd.2 ≠ [] ∧ occursInB hd.2 t = true
    · have heq : knownStep mode (t, c) hd
          = (replaceAll hd.2 (redact mode hd.2 hd.1) t, c + 1) := by
        simp [knownStep, hstep]
      rw [heq]
      exact foldl_snd_le _ (knownStep_snd_le mode) tl
        (replaceAll hd.2 (redact mode hd.2 hd.1) t, c + 1)
    · have heq : knownStep mode (t, c) hd = (t, c) := by
        simp only [knownStep]
        rw [if_neg hstep]
      rw [heq]
      rcases List.mem_cons.mp hp with rfl | hmem
      · exact absurd ⟨hne, (occursInB_iff _ _).mpr hocc⟩ hstep
      · exact ih t c ⟨p, hmem, hne, hocc⟩

/-- Claim C1 (corrected): the original claim — that `scrub(T, M).text` never
contains a non-empty value of `M` that occurred in `T`, and that
`redactedCount` is at least the number of distinct names of `M` whose value
occurred in `T` — fails on the code (see `spec_c1_counterexample`).  What
holds: (a) whenever some non-empty value of `M` occurs in `T`, at least one
replacement is counted, in any redaction mode and with any custom patterns;
(b) the specification's concrete scenario evaluates exactly as stated, with
`redactedCount = 2`. -/
theorem spec_c1_amended :
    (∀ (mode : RedactMode) (custom : List RPat) (t : Str) (m : List (Str × Str)),
        (∃ p, p ∈ m ∧ p.2 ≠ [] ∧ occursIn p.2 t) →
        1 ≤ (scrub ⟨mode, custom⟩ t m).redactedCount) ∧
    scrub ⟨RedactMode.placeholder, []⟩
        (("Connected with sk_live_abc123, password supersecret").data)
        [(("API_KEY").data, ("sk_live_abc123").data),
         (("DB_PASS").data, ("supersecret").data)]
      = ⟨("Connected with [REDACTED:API_KEY], password [REDACTED:DB_PASS]").data, 2⟩ := by
  constructor
  · intro mode custom t m hex
    have h1 : 0 + 1 ≤ (m.foldl (knownStep mode) (t, 0)).2 :=
      known_foldl_pos mode m t 0 hex
    have h2 := foldl_snd_le _ (patternStep_snd_le mode) builtinRules
      (m.foldl (knownStep mode) (t, 0))
    have h3 := foldl_snd_le _ (customStep_snd_le mode) custom
      (builtinRules.foldl (patternStep mode) (m.foldl (knownStep mode) (t, 0)))
    simp only [scrub]
    omega
  · decide

/-- Claim C1, counterexample: with value `EDACTED` for name `X`, the
placeholder replacement `[REDACTED:X]` itself contains `EDACTED`, so the
value that occurred in the input survives in `scrub`'s output; and with two
distinct names `A ≠ B` sharing the value `abc` that occurs in the input,
`redactedCount` is `1`, below the two distinct names whose value occurred. -/
theorem spec_c1_counterexample :
    (occursInB (("EDACTED").data) (("xEDACTEDy").data) = true ∧
      (("EDACTED").data ≠ ([] : Str)) ∧
      occursInB (("EDACTED").data)
        (scrub ⟨RedactMode.placeholder, []⟩ (("xEDACTEDy").data)
          [(("X").data, ("EDACTED").data)]).text = true) ∧
    (occursInB (("abc").data) (("zabcz").data) = true ∧
      (("A").data ≠ ("B").data) ∧
      (scrub ⟨RedactMode.placeholder, []⟩ (("zabcz").data)
        [(("A").data, ("abc").data), (("B").data, ("abc").data)]).redactedCount = 1) := by
  decide

theorem spec_c1_witness :
    1 ≤ (scrub ⟨RedactMode.placeholder, []⟩ (("say hush now").data)
      [(("PW").data, ("hush").data)]).redactedCount :=
  spec_c1_amended.1 RedactMode.placeholder [] (("say hush now").data)
    [(("PW").data, ("hush").data)]
    ⟨((("PW").data, ("hush").data)), by decide, by decide,
      ⟨("say ").data, (" now").data, by decide⟩⟩

/-- Claim C4: for a matched text of length `L`, asterisk mode produces
exactly `L` asterisks; partial mode with `L ≤ 6` coincides with asterisk
mode; partial mode with `L > 6` keeps the first 3 and last 3 characters
around a literal `***`; placeholder mode produces `[REDACTED:<label>]`.
The same `redact` function serves all three scrubbing passes. -/
theorem spec_c4 (v label : Str) :
    ((redact RedactMode.asterisk v label).length = v.length ∧
      ∀ c ∈ redact RedactMode.asterisk v label, c = '*') ∧
    (v.length ≤ 6 →
      redact RedactMode.partialM v label = redact RedactMode.asterisk v label) ∧
    (6 < v.length →
      redact RedactMode.partialM v label
        = v.take 3 ++ ("***").data ++ v.drop (v.length - 3)) ∧
    redact RedactMode.placeholder v label
      = ("[REDACTED:").data ++ label ++ ("]").data := by
  refine ⟨⟨by simp [redact], ?_⟩, ?_, ?_, rfl⟩
  · intro c hc
    exact List.eq_of_mem_replicate hc
  · intro h
    simp [redact, h]
  · intro h
    simp only [redact]
    rw [if_neg (by omega)]

theorem spec_c4_witness :
    ((("secret").data.length ≤ 6 ∧
      redact RedactMode.partialM (("secret").data) (("L").data)
        = redact RedactMode.asterisk (("secret").data) (("L").data))) ∧
    (6 < ("sk_live_abc123").data.length ∧
      redact RedactMode.partialM (("sk_live_abc123").data) (("K").data)
        = ("sk_live_abc123").data.take 3 ++ ("***").data ++
          ("sk_live_abc123").data.drop (("sk_live_abc123").data.length - 3)) :=
  ⟨⟨by decide, (spec_c4 (("secret").data) (("L").data)).2.1 (by decide)⟩,
   ⟨by decide, (spec_c4 (("sk_live_abc123").data) (("K").data)).2.2.1 (by decide)⟩⟩

/-- Claim C8: `check()` first discards timestamps aged at least `windowMs`,
admits (appending the current time) exactly when fewer than `maxRequests`
remain, and denies leaving the pruned list unchanged; with
`maxRequests = 1, windowMs = 1000`, two calls within the window yield
`true` then `false`, and a call at or after `1000` ms from the first yields
`true` again. -/
theorem spec_c8 (now : Nat) (s : RLState) :
    ((rlCheck now s).1 = true ↔ (rlPrune now s).length < s.maxRequests) ∧
    (∀ t, t ∈ rlPrune now s ↔ t ∈ s.ts ∧ now - t < s.windowMs) ∧
    ((rlCheck now s).1 = true → (rlCheck now s).2.ts = rlPrune now s ++ [now]) ∧
    ((rlCheck now s).1 = false → (rlCheck now s).2.ts = rlPrune now s) ∧
    (∀ t0 t1 t2 : Nat, t1 - t0 < 1000 → 1000 ≤ t2 - t0 →
      (rlCheck t0 ⟨[], 1, 1000⟩).1 = true ∧
      (rlCheck t1 (rlCheck t0 ⟨[], 1, 1000⟩).2).1 = false ∧
      (rlCheck t2 (rlCheck t1 (rlCheck t0 ⟨[], 1, 1000⟩).2).2).1 = true) := by
  refine ⟨?_, ?_, ?_, ?_, ?_⟩
  · by_cases h : s.maxRequests ≤ (rlPrune now s).length
    · simp [rlCheck, h]
    · simp [rlCheck, h]
      omega
  · intro t
    simp [rlPrune, List.mem_filter]
  · intro h
    by_cases hc : s.maxRequests ≤ (rlPrune now s).length
    · simp [rlCheck, hc] at h
    · simp [rlCheck, hc]
  · intro h
    by_cases hc : s.maxRequests ≤ (rlPrune now s).length
    · simp [rlCheck, hc]
    · simp [rlCheck, hc] at h
  · intro t0 t1 t2 h1 h2
    have e0 : rlCheck t0 ⟨[], 1, 1000⟩ = (true, ⟨[t0], 1, 1000⟩) := by
      simp [rlCheck, rlPrune]
    have e1 : rlCheck t1 ⟨[t0], 1, 1000⟩ = (false, ⟨[t0], 1, 1000⟩) := by
      simp [rlCheck, rlPrune, h1]
    have e2 : rlCheck t2 ⟨[t0], 1, 1000⟩ = (true, ⟨[t2], 1, 1000⟩) := by
      have hn : ¬ (t2 - t0 < 1000) := by omega
      simp [rlCheck, rlPrune, hn]
    rw [e0]
    exact ⟨rfl, by rw [e1], by rw [e1, e2]⟩

theorem spec_c8_witness :
    (rlCheck 0 ⟨[], 1, 1000⟩).1 = true ∧
    (rlCheck 500 (rlCheck 0 ⟨[], 1, 1000⟩).2).1 = false ∧
    (rlCheck 1500 (rlCheck 500 (rlCheck 0 ⟨[], 1, 1000⟩).2).2).1 = true :=
  (spec_c8 0 ⟨[], 1, 1000⟩).2.2.2.2 0 500 1500 (by decide) (by decide)

lemma lookupSt_setSt_self (st : SecretStoreM) (n v src : Str) :
    lookupSt (setSt st n v src) n = some ⟨v, sourcesSt st n ++ [src], src⟩ := by
  induction st with
  | nil => simp [setSt, lookupSt, sourcesSt]
  | cons ke rest ih =>
    obtain ⟨k, e⟩ := ke
    by_cases h : k = n
    · subst h
      simp [setSt, lookupSt, sourcesSt]
    · simp only [setSt, if_neg h, lookupSt, ih, sourcesSt]

lemma lookupSt_setSt_other (st : SecretStoreM) (n v src m : Str) (h : n ≠ m) :
    lookupSt (setSt st n v src) m = lookupSt st m := by
  induction st with
  | nil => simp [setSt, lookupSt, h]
  | cons ke rest ih =>
    obtain ⟨k, e⟩ := ke
    by_cases hk : k = n
    · subst hk
      simp [setSt, lookupSt, h]
    · simp only [setSt, if_neg hk, lookupSt, ih]

lemma sourcesSt_setSt_self (st : SecretStoreM) (n v src : Str) :
    sourcesSt (setSt st n v src) n = sourcesSt st n ++ [src] := by
  simp [sourcesSt, lookupSt_setSt_self]

lemma sourcesSt_setSt_other (st : SecretStoreM) (n v src m : Str) (h : n ≠ m) :
    sourcesSt (setSt st n v src) m = sourcesSt st m := by
  simp [sourcesSt, lookupSt_setSt_other st n v src m h]

lemma hasSt_iff_mem_names (st : SecretStoreM) (n : Str) :
    hasSt st n = true ↔ n ∈ namesSt st := by
  induction st with
  | nil => simp [hasSt, lookupSt, namesSt]
  | cons ke rest ih =>
    obtain ⟨k, e⟩ := ke
    by_cases h : k = n
    · subst h
      simp [hasSt, lookupSt, namesSt]
    · simp only [hasSt, lookupSt, if_neg h, namesSt, List.map_cons, List.mem_cons]
      rw [← namesSt, ← hasSt, ih]
      constructor
      · exact Or.inr
      · rintro (hc | hm)
        · exact absurd hc.symm h
        · exact hm

lemma namesSt_setSt (st : SecretStoreM) (n v src : Str) :
    namesSt (setSt st n v src)
      = if n ∈ namesSt st then namesSt st else namesSt st ++ [n] := by
  induction st with
  | nil => simp [setSt, namesSt]
  | cons ke rest ih =>
    obtain ⟨k, e⟩ := ke
    by_cases h : k = n
    · subst h
      simp [setSt, namesSt]
    · simp only [setSt, if_neg h, namesSt, List.map_cons, List.mem_cons]
      rw [← namesSt, ← namesSt, ih]
      by_cases hm : n ∈ namesSt rest
      · rw [if_pos hm, if_pos (Or.inr hm)]
      · rw [if_neg hm, if_neg (by rintro (hc | hmm); exact h hc.symm; exact hm hmm)]
        simp

lemma applyOps_cons (st : SecretStoreM) (o : Str × Str × Str) (ops : List (Str × Str × Str)) :
    applyOps st (o :: ops) = applyOps (setSt st o.1 o.2.1 o.2.2) ops := by
  simp [applyOps]

lemma applyOps_lookup_of_filter_nil (ops : List (Str × Str × Str)) (n : Str) :
    ∀ st, ops.filter (fun o => decide (o.1 = n)) = [] →
      lookupSt (applyOps st ops) n = lookupSt st n := by
  induction ops with
  | nil => intro st _; simp [applyOps]
  | cons o rest ih =>
    intro st hf
    by_cases ho : o.1 = n
    · rw [List.filter_cons_of_pos (by simp [ho])] at hf
      simp at hf
    · rw [List.filter_cons_of_neg (by simp [ho])] at hf
      rw [applyOps_cons, ih _ hf, lookupSt_setSt_other st o.1 _ _ n ho]

lemma applyOps_lookup_of_filter_last (ops : List (Str × Str × Str)) (n : Str) :
    ∀ st lst rfront,
      (ops.filter (fun o => decide (o.1 = n))).reverse = lst :: rfront →
      lookupSt (applyOps st ops) n =
        some ⟨lst.2.1,
          sourcesSt st n ++ (ops.filter (fun o => decide (o.1 = n))).map (fun o => o.2.2),
          lst.2.2⟩ := by
  induction ops with
  | nil => intro st lst rfront h; simp at h
  | cons o rest ih =>
    intro st lst rfront h
    by_cases ho : o.1 = n
    · subst ho
      rw [List.filter_cons_of_pos (by simp)] at h ⊢
      rw [applyOps_cons]
      rcases hr : (rest.filter (fun o2 => decide (o2.1 = o.1))).reverse with _ | ⟨lst2, rf2⟩
      · have hnil : rest.filter (fun o2 => decide (o2.1 = o.1)) = [] :=
          List.reverse_eq_nil_iff.mp hr
        rw [List.reverse_cons, hr, List.nil_append] at h
        have hlst : o = lst := ((List.cons.injEq _ _ _ _).mp h).1
        subst hlst
        rw [applyOps_lookup_of_filter_nil rest o.1 _ hnil, hnil]
        rw [lookupSt_setSt_self]
        simp
      · rw [List.reverse_cons, hr, List.cons_append] at h
        have hlst : lst2 = lst := ((List.cons.injEq _ _ _ _).mp h).1
        subst hlst
        rw [ih _ lst2 rf2 hr, sourcesSt_setSt_self]
        simp
    · rw [List.filter_cons_of_neg (by simp [ho])] at h ⊢
      rw [applyOps_cons, ih _ lst rfront h,
        sourcesSt_setSt_other st o.1 o.2.1 o.2.2 n ho]

lemma namesSt_applyOps (ops : List (Str × Str × Str)) :
    ∀ st, namesSt (applyOps st ops)
      = (ops.map (·.1)).foldl (fun acc x => if x ∈ acc then acc else acc ++ [x])
          (namesSt st) := by
  induction ops with
  | nil => intro st; simp [applyOps]
  | cons o rest ih =>
    intro st
    rw [applyOps_cons, ih, List.map_cons, List.foldl_cons, namesSt_setSt]

/-- Claim C3: for a trace of `set` calls, if the calls touching name `n`
are, in order, `front ++ [(n, vk, sk)]`, then `get n` returns the last
value `vk`, `activeSource n` the last source `sk`, `sources n` the full
source sequence in call order, and `names()` lists every name at its
first-insertion position (the insertion-ordered fold of the name trace),
regardless of later overwrites. -/
theorem spec_c3 (ops : List (Str × Str × Str)) (n : Str)
    (front : List (Str × Str × Str)) (vk sk : Str)
    (hfilter : ops.filter (fun o => decide (o.1 = n)) = front ++ [(n, vk, sk)]) :
    getSt (applyOps [] ops) n = some vk ∧
    activeSourceSt (applyOps [] ops) n = some sk ∧
    sourcesSt (applyOps [] ops) n = (front ++ [(n, vk, sk)]).map (fun o => o.2.2) ∧
    namesSt (applyOps [] ops) = firstInsert (ops.map (·.1)) := by
  have hrev : (ops.filter (fun o => decide (o.1 = n))).reverse
      = (n, vk, sk) :: front.reverse := by
    rw [hfilter, List.reverse_append]
    simp
  have hmain := applyOps_lookup_of_filter_last ops n [] (n, vk, sk) front.reverse hrev
  refine ⟨?_, ?_, ?_, ?_⟩
  · simp [getSt, hmain]
  · simp [activeSourceSt, hmain]
  · simp [sourcesSt, hmain, hfilter, lookupSt]
  · rw [namesSt_applyOps]
    rfl

theorem spec_c3_witness :
    getSt (applyOps []
        [(("A").data, ("1").data, ("s1").data),
         (("B").data, ("x").data, ("t1").data),
         (("A").data, ("2").data, ("s2").data)]) (("A").data)
      = some (("2").data) ∧
    activeSourceSt (applyOps []
        [(("A").data, ("1").data, ("s1").data),
         (("B").data, ("x").data, ("t1").data),
         (("A").data, ("2").data, ("s2").data)]) (("A").data)
      = some (("s2").data) ∧
    sourcesSt (applyOps []
        [(("A").data, ("1").data, ("s1").data),
         (("B").data, ("x").data, ("t1").data),
         (("A").data, ("2").data, ("s2").data)]) (("A").data)
      = [("s1").data, ("s2").data] ∧
    namesSt (applyOps []
        [(("A").data, ("1").data, ("s1").data),
         (("B").data, ("x").data, ("t1").data),
         (("A").data, ("2").data, ("s2").data)])
      = [("A").data, ("B").data] := by
  have h := spec_c3
    [(("A").data, ("1").data, ("s1").data),
     (("B").data, ("x").data, ("t1").data),
     (("A").data, ("2").data, ("s2").data)]
    (("A").data)
    [(("A").data, ("1").data, ("s1").data)]
    (("2").data) (("s2").data) (by decide)
  refine ⟨h.1, h.2.1, ?_, ?_⟩
  · rw [h.2.2.1]
    decide
  · rw [h.2.2.2]
    decide

lemma blockedTokenB_iff (b cmd : Str) :
    blockedTokenB b cmd = true ↔ wholeTokenOccurrence b cmd := by
  unfold blockedTokenB wholeTokenOccurrence
  rw [List.any_eq_true]
  constructor
  · rintro ⟨i, hi, hcond⟩
    simp only [Bool.and_eq_true, Bool.or_eq_true, decide_eq_true_eq] at hcond
    obtain ⟨⟨htake, hleft⟩, hright⟩ := hcond
    have h2 : cmd.drop i = b ++ cmd.drop (i + b.length) := by
      conv_lhs => rw [← List.take_append_drop b.length (cmd.drop i)]
      rw [htake, List.drop_drop]
    have hsplit : cmd = cmd.take i ++ b ++ cmd.drop (i + b.length) := by
      calc cmd = cmd.take i ++ cmd.drop i := (List.take_append_drop i cmd).symm
        _ = cmd.take i ++ (b ++ cmd.drop (i + b.length)) := by rw [h2]
        _ = cmd.take i ++ b ++ cmd.drop (i + b.length) := by rw [List.append_assoc]
    refine ⟨cmd.take i, cmd.drop (i + b.length), hsplit, ?_, ?_⟩
    · rcases hleft with h0 | hb
      · left
        rw [h0]
        simp
      · right
        rcases hl : (cmd.take i).getLast? with _ | c
        · rw [hl] at hb
          simp at hb
        · rw [hl] at hb
          obtain ⟨pre2, hpre⟩ := List.getLast?_eq_some_iff.mp hl
          exact ⟨c, pre2, hpre, hb⟩
    · rcases hh : (cmd.drop (i + b.length)).head? with _ | c
      · left
        exact List.head?_eq_none_iff.mp hh
      · right
        rw [hh] at hright
        obtain ⟨post2, hpost⟩ := List.head?_eq_some_iff.mp hh
        exact ⟨c, post2, hpost, hright⟩
  · rintro ⟨pre, post, hcmd, hlefts, hrights⟩
    refine ⟨pre.length, ?_, ?_⟩
    · rw [List.mem_range, hcmd]
      simp [List.length_append]
      omega
    · have hdrop : cmd.drop pre.length = b ++ post := by
        rw [hcmd, List.append_assoc, List.drop_left]
      have hdrop2 : cmd.drop (pre.length + b.length) = post := by
        rw [hcmd,
          show pre.length + b.length = (pre ++ b).length by simp [List.length_append]]
        exact List.drop_left _ _
      simp only [Bool.and_eq_true, Bool.or_eq_true, decide_eq_true_eq]
      refine ⟨⟨?_, ?_⟩, ?_⟩
      · rw [hdrop, List.take_left]
      · rcases hlefts with rfl | ⟨c, pre2, rfl, hbc⟩
        · left
          simp
        · right
          have htake : cmd.take (pre2 ++ [c]).length = pre2 ++ [c] := by
            rw [hcmd, List.append_assoc, List.take_left]
          rw [htake, List.getLast?_concat]
          exact hbc
      · rcases hrights with rfl | ⟨c, post2, rfl, hbc⟩
        · rw [hdrop2]
          rfl
        · rw [hdrop2]
          exact hbc

/-- Claim C2: for every configured blocked entry `b`, `execute` rejects a
command exactly when `b` occurs in it as a whole token bounded on both
sides by start/end-of-string, whitespace or a shell metacharacter (`|`,
`&`, `;`); a command containing a blocked entry only inside a longer token
is not rejected (execution proceeds to the spawn phase); a rejection
carries exit code 1, empty stdout, a stderr naming the blocked term, and
zero redactions, without spawning anything. -/
theorem spec_c2 (bl : List String) (cmd : String) :
    (∀ b, b ∈ bl → wholeTokenOccurrence b.data cmd.data →
        executeStart bl cmd ≠ ExecPhase.spawned) ∧
    ((∀ b, b ∈ bl → ¬ wholeTokenOccurrence b.data cmd.data) →
        executeStart bl cmd = ExecPhase.spawned) ∧
    (∀ r, executeStart bl cmd = ExecPhase.blockedEarly r →
        ∃ b, b ∈ bl ∧ wholeTokenOccurrence b.data cmd.data ∧ r = blockedResult b) := by
  refine ⟨?_, ?_, ?_⟩
  · intro b hb hocc hspawn
    rcases hfind : bl.find? (fun x => blockedTokenB x.data cmd.data) with _ | b0
    · have := List.find?_eq_none.mp hfind b hb
      exact this ((blockedTokenB_iff _ _).mpr hocc)
    · rw [executeStart, blockCheck, hfind] at hspawn
      exact ExecPhase.noConfusion hspawn
  · intro hnone
    have hfind : bl.find? (fun x => blockedTokenB x.data cmd.data) = none := by
      rw [List.find?_eq_none]
      intro x hx htok
      exact hnone x hx ((blockedTokenB_iff _ _).mp htok)
    rw [executeStart, blockCheck, hfind]
    rfl
  · intro r hr
    rcases hfind : bl.find? (fun x => blockedTokenB x.data cmd.data) with _ | b0
    · rw [executeStart, blockCheck, hfind] at hr
      exact ExecPhase.noConfusion hr
    · rw [executeStart, blockCheck, hfind] at hr
      have hr2 : ExecPhase.blockedEarly (blockedResult b0) = ExecPhase.blockedEarly r := hr
      have hp : blockedTokenB b0.data cmd.data = true := by
        simpa using List.find?_some hfind
      refine ⟨b0, List.mem_of_find?_eq_some hfind,
        (blockedTokenB_iff _ _).mp hp, ?_⟩
      injection hr2 with h
      exact h.symm

theorem spec_c2_witness :
    executeStart ["sudo"] "sudoku test" = ExecPhase.spawned ∧
    executeStart ["sudo"] "make | sudo reboot" ≠ ExecPhase.spawned := by
  constructor
  · apply (spec_c2 ["sudo"] "sudoku test").2.1
    intro b hb
    have hb2 : b = "sudo" := by simpa using hb
    subst hb2
    intro hocc
    have htrue := (blockedTokenB_iff (("sudo").data) (("sudoku test").data)).mpr hocc
    have hfalse : blockedTokenB (("sudo").data) (("sudoku test").data) = false := by
      decide
    rw [hfalse] at htrue
    exact absurd htrue (by decide)
  · exact (spec_c2 ["sudo"] "make | sudo reboot").1 "sudo" (by decide)
      ((blockedTokenB_iff _ _).mp (by decide))

lemma stepEv_resolved_stable (sc : Scrubber) (secrets : List (Str × Str))
    (s : ExecState) (e : PEvent) (r : ExecuteResult) (h : s.resolved = some r) :
    (stepEv sc secrets s e).resolved = some r := by
  cases e <;> simp [stepEv, handleExit, doneCommit, h]

lemma runEvents_resolved_stable (sc : Scrubber) (secrets : List (Str × Str))
    (es : List PEvent) :
    ∀ (s : ExecState) (r : ExecuteResult), s.resolved = some r →
      (runEvents sc secrets s es).resolved = some r := by
  induction es with
  | nil => intro s r h; simpa [runEvents] using h
  | cons e rest ih =>
    intro s r h
    rw [runEvents, List.foldl_cons]
    exact ih _ r (stepEv_resolved_stable sc secrets s e r h)

lemma runEvents_data_only (sc : Scrubber) (secrets : List (Str × Str))
    (es : List PEvent) (hall : es.all isDataEv = true) :
    ∀ s : ExecState,
      (runEvents sc secrets s es).resolved = s.resolved ∧
      (runEvents sc secrets s es).timedOut = s.timedOut := by
  induction es with
  | nil => intro s; simp [runEvents]
  | cons e rest ih =>
    rw [List.all_cons, Bool.and_eq_true] at hall
    intro s
    rw [runEvents, List.foldl_cons]
    have hrest := ih hall.2 (stepEv sc secrets s e)
    rw [runEvents] at hrest
    cases e with
    | dataOut ch => simpa [stepEv] using hrest
    | dataErr ch => simpa [stepEv] using hrest
    | timerFire => exact absurd hall.1 (by simp [isDataEv])
    | exited c => exact absurd hall.1 (by simp [isDataEv])
    | closed c => exact absurd hall.1 (by simp [isDataEv])
    | errored m => exact absurd hall.1 (by simp [isDataEv])

/-- Claim C5: if the timeout fires before the spawned process exits (only
`data` events precede the timer event, and only `data` events separate it
from the process's `exit`/`close`), `execute` resolves to exit code 1,
empty stdout, stderr `Command timeout exceeded`, and zero redactions — the
committed result is a constant, so no scrubbing pass contributes to it —
whatever events arrive afterwards. -/
theorem spec_c5 (sc : Scrubber) (secrets : List (Str × Str))
    (pre mid post : List PEvent) (e : PEvent)
    (hpre : pre.all isDataEv = true) (hmid : mid.all isDataEv = true)
    (he : isExitCloseEv e = true) :
    (runEvents sc secrets initExecState
        (pre ++ PEvent.timerFire :: (mid ++ e :: post))).resolved
      = some ⟨1, [], ("Command timeout exceeded").data, 0⟩ := by
  rw [runEvents, List.foldl_append, List.foldl_cons, List.foldl_append, List.foldl_cons]
  set s1 := List.foldl (stepEv sc secrets) initExecState pre with hs1
  have h1 := runEvents_data_only sc secrets pre hpre initExecState
  rw [runEvents] at h1
  rw [← hs1] at h1
  have h1r : s1.resolved = none := by rw [h1.1]; rfl
  have h1t : s1.timedOut = false := by rw [h1.2]; rfl
  set s2 := stepEv sc secrets s1 PEvent.timerFire with hs2
  have h2r : s2.resolved = none := by rw [hs2]; simpa [stepEv] using h1r
  have h2t : s2.timedOut = true := by rw [hs2]; simp [stepEv]
  have h3 := runEvents_data_only sc secrets mid hmid s2
  rw [runEvents] at h3
  set s3 := List.foldl (stepEv sc secrets) s2 mid with hs3
  have h3r : s3.resolved = none := by rw [h3.1]; exact h2r
  have h3t : s3.timedOut = true := by rw [h3.2]; exact h2t
  have h4 : (stepEv sc secrets s3 e).resolved
      = some ⟨1, [], ("Command timeout exceeded").data, 0⟩ := by
    cases e with
    | exited c => simp [stepEv, handleExit, doneCommit, h3r, h3t]
    | closed c => simp [stepEv, handleExit, doneCommit, h3r, h3t]
    | dataOut ch => exact absurd he (by simp [isExitCloseEv])
    | dataErr ch => exact absurd he (by simp [isExitCloseEv])
    | timerFire => exact absurd he (by simp [isExitCloseEv])
    | errored m => exact absurd he (by simp [isExitCloseEv])
  have := runEvents_resolved_stable sc secrets post (stepEv sc secrets s3 e) _ h4
  rw [runEvents] at this
  exact this

theorem spec_c5_witness :
    (runEvents ⟨RedactMode.placeholder, []⟩ [] initExecState
        ([PEvent.dataOut (("x").data)] ++ PEvent.timerFire ::
          ([] ++ PEvent.closed (some 0) :: [PEvent.exited (some 0)]))).resolved
      = some ⟨1, [], ("Command timeout exceeded").data, 0⟩ :=
  spec_c5 ⟨RedactMode.placeholder, []⟩ [] [PEvent.dataOut (("x").data)] []
    [PEvent.exited (some 0)] (PEvent.closed (some 0)) rfl rfl rfl

/-- Claim C6: the result slot of `execute` is single-resolution — once a
result is committed by any of the three terminal paths, every later event
(late `exit` after `close`, `close` after `error`, duplicate `exit`, more
data, a stray timer) leaves it unchanged; and on an unresolved state, any
terminal event (`exit`, `close`, or `error`) commits a result. -/
theorem spec_c6 (sc : Scrubber) (secrets : List (Str × Str)) (s : ExecState)
    (r : ExecuteResult) (es : List PEvent) (e : PEvent) :
    (s.resolved = some r → (runEvents sc secrets s es).resolved = some r) ∧
    (s.resolved = none → isTerminalEv e = true →
      ((stepEv sc secrets s e).resolved).isSome = true) := by
  constructor
  · intro h
    exact runEvents_resolved_stable sc secrets es s r h
  · intro hnone hterm
    cases e with
    | exited c =>
      by_cases ht : s.timedOut <;>
        simp [stepEv, handleExit, doneCommit, hnone, ht]
    | closed c =>
      by_cases ht : s.timedOut <;>
        simp [stepEv, handleExit, doneCommit, hnone, ht]
    | errored m => simp [stepEv, doneCommit, hnone]
    | dataOut ch => exact absurd hterm (by simp [isTerminalEv])
    | dataErr ch => exact absurd hterm (by simp [isTerminalEv])
    | timerFire => exact absurd hterm (by simp [isTerminalEv])

theorem spec_c6_witness :
    (runEvents ⟨RedactMode.placeholder, []⟩ []
        { initExecState with resolved := some ⟨0, [], [], 0⟩ }
        [PEvent.timerFire, PEvent.exited (some 7), PEvent.closed none]).resolved
      = some ⟨0, [], [], 0⟩ ∧
    ((stepEv ⟨RedactMode.placeholder, []⟩ [] initExecState
        (PEvent.errored (("boom").data))).resolved).isSome = true :=
  ⟨(spec_c6 ⟨RedactMode.placeholder, []⟩ [] _ ⟨0, [], [], 0⟩
      [PEvent.timerFire, PEvent.exited (some 7), PEvent.closed none]
      (PEvent.errored [])).1 rfl,
   (spec_c6 ⟨RedactMode.placeholder, []⟩ [] initExecState ⟨0, [], [], 0⟩ []
      (PEvent.errored (("boom").data))).2 rfl rfl⟩

/-- Claim C7: a `run_with_secrets` request naming at least one secret absent
from the store (and not already denied by the rate limiter) is rejected
before `execute` is invoked — exit code 1, empty stdout, zero redactions,
no process spawned, no secret injected — and the stderr lists exactly the
requested names missing from the store. -/
theorem spec_c7 (limiter : Option RLState) (now : Nat) (store : SecretStoreM)
    (command : String) (names : List String) (t : Option Nat) (wd : Option String)
    (hrate : match limiter with
      | none => True
      | some l => (rlCheck now l).1 = true)
    (hmiss : ∃ nm, nm ∈ names ∧ hasSt store nm.data = false) :
    runWithSecrets limiter now store command names t wd
      = RunOutcome.rejected
          ⟨1, [],
            (("Secrets not found: ") ++
              String.intercalate (", ")
                (names.filter fun s => !(hasSt store s.data))).data,
            0⟩ ∧
    ∀ x, x ∈ names.filter (fun s => !(hasSt store s.data)) ↔
        (x ∈ names ∧ hasSt store x.data = false) := by
  have hne : names.filter (fun s => !(hasSt store s.data)) ≠ [] := by
    obtain ⟨nm, hmem, hnot⟩ := hmiss
    intro hnil
    have hin : nm ∈ names.filter (fun s => !(hasSt store s.data)) :=
      List.mem_filter.mpr ⟨hmem, by simp [hnot]⟩
    rw [hnil] at hin
    simp at hin
  constructor
  · cases limiter with
    | none =>
      simp only [runWithSecrets, runBody]
      rw [if_pos hne]
    | some l =>
      simp only [runWithSecrets]
      rw [if_neg (by simp [hrate])]
      simp only [runBody]
      rw [if_pos hne]
  · intro x
    rw [List.mem_filter]
    simp

/-- Claim C7, witness. -/
theorem spec_c7_witness :
    runWithSecrets none 0
        [(("API_KEY").data, ⟨("v").data, [("f").data], ("f").data⟩)]
        "echo hi" ["API_KEY", "MISSING"] none none
      = RunOutcome.rejected ⟨1, [], ("Secrets not found: MISSING").data, 0⟩ := by
  have h := spec_c7 none 0
    [(("API_KEY").data, ⟨("v").data, [("f").data], ("f").data⟩)]
    "echo hi" ["API_KEY", "MISSING"] none none trivial
    ⟨"MISSING", by decide, by decide⟩
  rw [h.1]
  decide

lemma lookupKV_upsertKV_self (m : List (Str × Str)) (k v : Str) :
    lookupKV (upsertKV m k v) k = some v := by
  induction m with
  | nil => simp [upsertKV, lookupKV]
  | cons kv rest ih =>
    obtain ⟨k0, v0⟩ := kv
    by_cases h : k0 = k
    · subst h
      simp [upsertKV, lookupKV]
    · simp [upsertKV, lookupKV, h, ih]

lemma lookupKV_upsertKV_other (m : List (Str × Str)) (k v k2 : Str) (h : k ≠ k2) :
    lookupKV (upsertKV m k v) k2 = lookupKV m k2 := by
  induction m with
  | nil => simp [upsertKV, lookupKV, h]
  | cons kv rest ih =>
    obtain ⟨k0, v0⟩ := kv
    by_cases h0 : k0 = k
    · subst h0
      simp [upsertKV, lookupKV, h]
    · simp [upsertKV, lookupKV, h0, ih]

lemma buildFold_lookup (store : SecretStoreM) (names : List String) :
    ∀ (m : List (Str × Str)) (k : Str),
      lookupKV (names.foldl (buildStep store) m) k
        = match getSt store k with
          | some v =>
            if v ≠ [] ∧ ∃ nm, nm ∈ names ∧ nm.data = k then some v
            else lookupKV m k
          | none => lookupKV m k := by
  induction names with
  | nil =>
    intro m k
    cases hg : getSt store k with
    | none => simp
    | some v => simp
  | cons nm0 rest ih =>
    intro m k
    rw [List.foldl_cons, ih (buildStep store m nm0) k]
    by_cases hk : nm0.data = k
    · subst hk
      cases hg : getSt store nm0.data with
      | none =>
        simp only [hg]
        simp [buildStep, hg]
      | some v =>
        by_cases hv : v = []
        · subst hv
          simp only [hg]
          rw [if_neg (by simp), if_neg (by simp)]
          simp [buildStep, hg]
        · simp only [hg]
          have hcond : v ≠ [] ∧ ∃ nm, nm ∈ nm0 :: rest ∧ nm.data = nm0.data :=
            ⟨hv, nm0, List.mem_cons_self nm0 rest, rfl⟩
          conv_rhs => rw [if_pos hcond]
          by_cases hex : v ≠ [] ∧ ∃ nm, nm ∈ rest ∧ nm.data = nm0.data
          · rw [if_pos hex]
          · rw [if_neg hex]
            simp only [buildStep, hg]
            rw [if_pos (by simpa using hv)]
            exact lookupKV_upsertKV_self m nm0.data v
    · have hmem : (∃ nm, nm ∈ nm0 :: rest ∧ nm.data = k)
          ↔ (∃ nm, nm ∈ rest ∧ nm.data = k) := by
        constructor
        · rintro ⟨nm, hnm, hd⟩
          rcases List.mem_cons.mp hnm with rfl | hr
          · exact absurd hd hk
          · exact ⟨nm, hr, hd⟩
        · rintro ⟨nm, hnm, hd⟩
          exact ⟨nm, List.mem_cons_of_mem _ hnm, hd⟩
      have hstep : lookupKV (buildStep store m nm0) k = lookupKV m k := by
        cases hg0 : getSt store nm0.data with
        | none => simp [buildStep, hg0]
        | some v0 =>
          by_cases hv0 : v0 = []
          · subst hv0
            simp [buildStep, hg0]
          · simp only [buildStep, hg0]
            rw [if_pos (by simpa using hv0)]
            exact lookupKV_upsertKV_other m nm0.data v0 k hk
      cases hg : getSt store k with
      | none =>
        simp only [hg]
        exact hstep
      | some v =>
        simp only [hg]
        by_cases hex : v ≠ [] ∧ ∃ nm, nm ∈ rest ∧ nm.data = k
        · rw [if_pos hex, if_pos ⟨hex.1, hmem.mpr hex.2⟩]
        · rw [if_neg hex, if_neg (fun hc => hex ⟨hc.1, hmem.mp hc.2⟩), hstep]

/-- Claim C10: a `run_with_secrets` request (admitted by the rate limiter)
all of whose named secrets exist proceeds to `execute`; a named secret
stored with the empty-string value passes validation but is silently
omitted from the injected secrets map (so nothing is set for it and the
known-value pass never sees it), while named secrets with non-empty values
are injected with their stored values, and nothing else is injected. -/
theorem spec_c10 (limiter : Option RLState) (now : Nat) (store : SecretStoreM)
    (command : String) (names : List String) (t : Option Nat) (wd : Option String)
    (hrate : match limiter with
      | none => True
      | some l => (rlCheck now l).1 = true)
    (hall : ∀ nm, nm ∈ names → hasSt store nm.data = true) :
    runWithSecrets limiter now store command names t wd
      = RunOutcome.runExec command (buildSecretsMap store names) (t.getD 30000) wd ∧
    (∀ nm, nm ∈ names → getSt store nm.data = some [] →
      lookupKV (buildSecretsMap store names) nm.data = none) ∧
    (∀ nm v, nm ∈ names → getSt store nm.data = some v → v ≠ [] →
      lookupKV (buildSecretsMap store names) nm.data = some v) ∧
    (∀ k v, lookupKV (buildSecretsMap store names) k = some v →
      (∃ nm, nm ∈ names ∧ nm.data = k) ∧ getSt store k = some v ∧ v ≠ []) := by
  have hfilter : names.filter (fun s => !(hasSt store s.data)) = [] := by
    rw [List.filter_eq_nil_iff]
    intro a ha
    simp [hall a ha]
  refine ⟨?_, ?_, ?_, ?_⟩
  · cases limiter with
    | none =>
      simp [runWithSecrets, runBody, hfilter]
    | some l =>
      simp only [runWithSecrets]
      rw [if_neg (by simp [hrate])]
      simp [runBody, hfilter]
  · intro nm hmem hget
    rw [buildSecretsMap, buildFold_lookup store names [] nm.data]
    simp only [hget]
    rw [if_neg (by simp)]
    rfl
  · intro nm v hmem hget hv
    rw [buildSecretsMap, buildFold_lookup store names [] nm.data]
    simp only [hget]
    rw [if_pos ⟨hv, nm, hmem, rfl⟩]
  · intro k v hlk
    rw [buildSecretsMap, buildFold_lookup store names [] k] at hlk
    cases hg : getSt store k with
    | none =>
      simp [hg, lookupKV] at hlk
    | some v0 =>
      simp only [hg] at hlk
      by_cases hc : v0 ≠ [] ∧ ∃ nm, nm ∈ names ∧ nm.data = k
      · rw [if_pos hc] at hlk
        injection hlk with hv
        subst hv
        exact ⟨hc.2, rfl, hc.1⟩
      · rw [if_neg hc] at hlk
        simp [lookupKV] at hlk

/-- Claim C10, witness. -/
theorem spec_c10_witness :
    lookupKV (buildSecretsMap
        [(("EMPTY").data, ⟨[], [("f").data], ("f").data⟩),
         (("FULL").data, ⟨("v").data, [("f").data], ("f").data⟩)]
        ["EMPTY", "FULL"]) (("EMPTY").data) = none ∧
    lookupKV (buildSecretsMap
        [(("EMPTY").data, ⟨[], [("f").data], ("f").data⟩),
         (("FULL").data, ⟨("v").data, [("f").data], ("f").data⟩)]
        ["EMPTY", "FULL"]) (("FULL").data) = some (("v").data) := by
  have h := spec_c10 none 0
    [(("EMPTY").data, ⟨[], [("f").data], ("f").data⟩),
     (("FULL").data, ⟨("v").data, [("f").data], ("f").data⟩)]
    "cmd" ["EMPTY", "FULL"] none none trivial (by decide)
  exact ⟨h.2.1 "EMPTY" (by decide) (by decide),
    h.2.2.1 "FULL" (("v").data) (by decide) (by decide) (by decide)⟩
